import Mathlib

/-! Verification of gotthapp, the `create` command (`cmd/create.go`).

A shallow embedding of `createCmd.Run` and `copyDir`, together with the parts of
the Go standard library they call (`strings.Replace`, `strings.TrimSpace`,
`strings.HasPrefix`, `strings.HasSuffix`, `fmt.Sprintf`, `bufio.Reader.ReadString`
and the `os` file operations), and the properties of the materialization
pipeline that are stated about them.

Go strings are modelled as lists of characters. The literals the program
searches for are ASCII, so on well-formed UTF-8 text the byte-wise search of the
Go library and the character-wise search below find the same occurrences.
-/

namespace Gotthapp

/-- A Go `string`. -/
abbrev GoString := List Char

/-! ## Standard library functions used by the command -/

/-- `strings.HasPrefix(s, p)`. -/
def HasPrefix (s p : GoString) : Bool := p.isPrefixOf s

/-- `strings.HasSuffix(s, p)`. -/
def HasSuffix (s p : GoString) : Bool := p.isSuffixOf s

/-- `unicode.IsSpace`: the Latin-1 spaces `\t \n \v \f \r`, space, U+0085 and
U+00A0, and the other code points with the Unicode White_Space property. -/
def isSpace (c : Char) : Bool :=
  let n := c.toNat
  (9 ≤ n && n ≤ 13) || n == 32 || n == 0x85 || n == 0xA0 || n == 0x1680 ||
    (0x2000 ≤ n && n ≤ 0x200A) || n == 0x2028 || n == 0x2029 || n == 0x202F ||
    n == 0x205F || n == 0x3000

/-- `strings.TrimSpace(s)`: `s` without its leading and trailing white space. -/
def TrimSpace (s : GoString) : GoString :=
  ((s.dropWhile isSpace).reverse.dropWhile isSpace).reverse

/-- The scan of `strings.Replace(s, old, new, -1)` for a non-empty `old`: at each
position, an occurrence of `old` is replaced by `new` and the scan resumes after
it; otherwise one character is copied. `fuel` bounds the number of steps. -/
def replaceScan (old new : GoString) : Nat → GoString → GoString
  | 0, s => s
  | fuel + 1, s =>
    if old.isPrefixOf s then new ++ replaceScan old new fuel (s.drop old.length)
    else
      match s with
      | [] => []
      | c :: t => c :: replaceScan old new fuel t

/-- `strings.ReplaceAll(s, old, new)`, which is `strings.Replace(s, old, new, -1)`:
every non-overlapping occurrence of `old`, found from the left, is replaced by
`new`. An empty `old` matches before every character and at the end. -/
def ReplaceAll (s old new : GoString) : GoString :=
  if old = [] then new ++ s.flatMap (fun c => c :: new)
  else replaceScan old new (s.length + 1) s

/-- `fmt.Sprintf` for formats whose only verb is `%s`, applied to string
arguments: each `%s` is replaced by the next argument. -/
def Sprintf : GoString → List GoString → GoString
  | [], _ => []
  | '%' :: 's' :: rest, a :: args => a ++ Sprintf rest args
  | '%' :: 's' :: rest, [] => "%!s(MISSING)".toList ++ Sprintf rest []
  | c :: rest, args => c :: Sprintf rest args

/-- `bufio.Reader.ReadString(delim)` on the remaining input: the text up to and
including the first `delim` and no error, or, when the input ends before a
`delim`, all of it and an error (`true`). -/
def ReadString (delim : Char) : GoString → GoString × Bool
  | [] => ([], true)
  | c :: rest =>
    if c = delim then ([c], false)
    else ((ReadString delim rest).1.cons c, (ReadString delim rest).2)

/-! ## Module identity -/

/-- The module path of the template, the literal at `create.go:86` and `:106`. -/
def oldModulePath : GoString := "github.com/dtg-lucifer/goth-stack-starter".toList

/-- The `newModulePath` of `create.go:85`. -/
def newModulePath (githubUsername projectName : GoString) : GoString :=
  Sprintf "github.com/%s/%s".toList [githubUsername, projectName]

/-- The content written back for a file of content `c` (`create.go:86`, `:105`). -/
def rewriteContent (githubUsername projectName c : GoString) : GoString :=
  ReplaceAll c oldModulePath (newModulePath githubUsername projectName)

/-- Whether no non-empty suffix of `new` is a beginning of `old` or begins with
`old`: then a replacement never creates a new occurrence of `old`. -/
def overlapFree (old new : GoString) : Bool :=
  new.tails.all fun s => s.isEmpty || !(s.isPrefixOf old || old.isPrefixOf s)

/-! ## File trees

The part of the file system below one directory is a tree. `copyDir` reads the
tree below `src` and writes the tree below `dst`; no path that it writes lies in
the source tree, so the source tree is the same throughout a call. -/

/-- The listing of a directory in the order in which `os.ReadDir` yields it: no
entry, or a first entry followed by the rest of the listing. An entry is a
regular file with its content, which the process can read and write, a regular
file that it can read and cannot write (`readonly`), a non-directory entry that
it is not permitted to open at all (`locked`), or a directory with its own
listing. -/
inductive Dir where
  | nil : Dir
  | file (name content : GoString) (rest : Dir) : Dir
  | readonly (name content : GoString) (rest : Dir) : Dir
  | locked (name : GoString) (rest : Dir) : Dir
  | sub (name : GoString) (children : Dir) (rest : Dir) : Dir
  deriving DecidableEq

/-- What a path names. -/
inductive Entry where
  | file (content : GoString) : Entry
  | readonly (content : GoString) : Entry
  | locked : Entry
  | dir (children : Dir) : Entry
  deriving DecidableEq

/-- A non-nil Go `error` of a file operation. -/
inductive IOError where
  | notExist : IOError
  | notDir : IOError
  | isDir : IOError
  | permission : IOError
  deriving DecidableEq

/-- The names of a listing. -/
def Dir.names : Dir → List GoString
  | .nil => []
  | .file name _ rest => name :: rest.names
  | .readonly name _ rest => name :: rest.names
  | .locked name rest => name :: rest.names
  | .sub name _ rest => name :: rest.names

/-- Whether the names of every listing in the tree are distinct, as they are in
a directory. -/
def Dir.WF : Dir → Bool
  | .nil => true
  | .file name _ rest => !rest.names.contains name && rest.WF
  | .readonly name _ rest => !rest.names.contains name && rest.WF
  | .locked name rest => !rest.names.contains name && rest.WF
  | .sub name children rest => !rest.names.contains name && children.WF && rest.WF

/-- The entry called `name` in a listing. -/
def Dir.get? : Dir → GoString → Option Entry
  | .nil, _ => none
  | .file n content rest, name => if n = name then some (.file content) else rest.get? name
  | .readonly n content rest, name =>
    if n = name then some (.readonly content) else rest.get? name
  | .locked n rest, name => if n = name then some .locked else rest.get? name
  | .sub n children rest, name => if n = name then some (.dir children) else rest.get? name

/-- What the relative path `path` names, starting from an entry. -/
def Entry.find? : Entry → List GoString → Option Entry
  | e, [] => some e
  | .dir d, name :: path =>
    match d.get? name with
    | some e => e.find? path
    | none => none
  | .file _, _ :: _ => none
  | .readonly _, _ :: _ => none
  | .locked, _ :: _ => none

/-- What the relative path `path` names below a directory. -/
def Dir.find? (d : Dir) (path : List GoString) : Option Entry := (Entry.dir d).find? path

/-- The listing that starts with the entry `e` under `name`, followed by `rest`. -/
def Dir.cons (name : GoString) : Entry → Dir → Dir
  | .file content, rest => .file name content rest
  | .readonly content, rest => .readonly name content rest
  | .locked, rest => .locked name rest
  | .dir children, rest => .sub name children rest

/-- The listing with the entry called `name` replaced by `e`, or with `e` added
under that name when there is none. -/
def Dir.set : Dir → GoString → Entry → Dir
  | .nil, name, e => Dir.cons name e .nil
  | .file n content rest, name, e =>
    if n = name then Dir.cons name e rest else .file n content (rest.set name e)
  | .readonly n content rest, name, e =>
    if n = name then Dir.cons name e rest else .readonly n content (rest.set name e)
  | .locked n rest, name, e =>
    if n = name then Dir.cons name e rest else .locked n (rest.set name e)
  | .sub n children rest, name, e =>
    if n = name then Dir.cons name e rest else .sub n children (rest.set name e)

/-- `os.RemoveAll(filepath.Join(dir, name))` on the listing of `dir`: the entry
called `name` is removed with all it contains; there is no error when there
is no such entry. -/
def Dir.removeAll : Dir → GoString → Dir
  | .nil, _ => .nil
  | .file n content rest, name =>
    if n = name then rest.removeAll name else .file n content (rest.removeAll name)
  | .readonly n content rest, name =>
    if n = name then rest.removeAll name else .readonly n content (rest.removeAll name)
  | .locked n rest, name =>
    if n = name then rest.removeAll name else .locked n (rest.removeAll name)
  | .sub n children rest, name =>
    if n = name then rest.removeAll name else .sub n children (rest.removeAll name)

/-- `os.ReadFile(filepath.Join(dir, name))` on the listing of `dir`. -/
def Dir.readFile (d : Dir) (name : GoString) : Except IOError GoString :=
  match d.get? name with
  | some (.file content) => .ok content
  | some (.readonly content) => .ok content
  | some .locked => .error .permission
  | some (.dir _) => .error .isDir
  | none => .error .notExist

/-- `os.WriteFile(filepath.Join(dir, name), content, 0644)` on the listing of
`dir`: the file is created, or truncated and written when it exists and can be
written. -/
def Dir.writeFile (d : Dir) (name content : GoString) : Except IOError Dir :=
  match d.get? name with
  | some (.file _) => .ok (d.set name (.file content))
  | none => .ok (d.set name (.file content))
  | some (.readonly _) => .error .permission
  | some .locked => .error .permission
  | some (.dir _) => .error .isDir

/-- `os.MkdirAll(filepath.Join(dir, name), 0755)` on the listing of the existing
directory `dir`: nothing to do when a directory of that name exists, an error
when another entry has the name, and a new empty directory otherwise. -/
def Dir.mkdirAll (d : Dir) (name : GoString) : Except IOError Dir :=
  match d.get? name with
  | some (.dir _) => .ok d
  | none => .ok (d.set name (.dir .nil))
  | some _ => .error .notDir

/-- The listing of the sub-directory `name` (empty when there is none). -/
def Dir.subdir (d : Dir) (name : GoString) : Dir :=
  match d.get? name with
  | some (.dir children) => children
  | _ => .nil

/-- The listing `d` with the directory of listing `scratch` at the relative path
`rel`. -/
def Dir.graft : List GoString → Dir → Dir → Dir
  | [], scratch, _ => scratch
  | name :: rel, scratch, d => d.set name (.dir (Dir.graft rel scratch (d.subdir name)))

/-- `filepath.Join(dir, name)` for a clean path `dir` and an entry name. -/
def Join (dir name : GoString) : GoString := dir ++ '/' :: name

/-! ## `copyDir` -/

/-- The function `copyDir(src, dst)` of `create.go:135`, on the listing of `src`
(what `os.ReadDir(src)` returns, with the content below each entry) and the
listing of the existing directory `dst`. The result is the listing of `dst`
when the call returns, and the error it returns (`none` for `nil`). -/
def copyDir : Dir → Dir → Dir × Option IOError
  | .nil, dst => (dst, none)
  | .sub name children rest, dst =>
    -- entry.IsDir()
    match dst.mkdirAll name with
    | .error e => (dst, some e)
    | .ok dst1 =>
      let r := copyDir children (dst1.subdir name)
      let dst2 := dst1.set name (.dir r.1)
      match r.2 with
      | some e => (dst2, some e)
      | none => copyDir rest dst2
  | .file name content rest, dst =>
    if HasPrefix name ".".toList then copyDir rest dst
    else
      match dst.writeFile name content with
      | .error e => (dst, some e)
      | .ok dst1 => copyDir rest dst1
  | .readonly name content rest, dst =>
    if HasPrefix name ".".toList then copyDir rest dst
    else
      match dst.writeFile name content with
      | .error e => (dst, some e)
      | .ok dst1 => copyDir rest dst1
  | .locked name rest, dst =>
    if HasPrefix name ".".toList then copyDir rest dst
    else (dst, some .permission)

/-! ## The `create` command -/

/-- The walk of `create.go:94` over the entries of the directory `path` with
listing `d`, in the order of the listing: the content of every non-directory
entry whose path ends in `.go` or `.templ` is read, rewritten and written back;
an error of `os.ReadFile` (a `locked` entry) or of `os.WriteFile` (a `readonly`
file) ends the walk. The result is the listing after the walk and the error that
`filepath.Walk` returns. -/
def walk (newPath : GoString) : GoString → Dir → Dir × Option IOError
  | _, .nil => (.nil, none)
  | path, .sub name children rest =>
    let r := walk newPath (Join path name) children
    match r.2 with
    | some e => (.sub name r.1 rest, some e)
    | none => (.sub name r.1 (walk newPath path rest).1, (walk newPath path rest).2)
  | path, .file name content rest =>
    if HasSuffix (Join path name) ".go".toList || HasSuffix (Join path name) ".templ".toList then
      (.file name (ReplaceAll content oldModulePath newPath) (walk newPath path rest).1,
        (walk newPath path rest).2)
    else (.file name content (walk newPath path rest).1, (walk newPath path rest).2)
  | path, .readonly name content rest =>
    if HasSuffix (Join path name) ".go".toList || HasSuffix (Join path name) ".templ".toList then
      (.readonly name content rest, some .permission)
    else (.readonly name content (walk newPath path rest).1, (walk newPath path rest).2)
  | path, .locked name rest =>
    if HasSuffix (Join path name) ".go".toList || HasSuffix (Join path name) ".templ".toList then
      (.locked name rest, some .permission)
    else (.locked name (walk newPath path rest).1, (walk newPath path rest).2)

/-- The stages of `createCmd.Run` that end the process with `os.Exit(1)`. -/
inductive Stage where
  | projectName | readUsername | username | getwd | mkdirTarget | mkdirTemp
  | clone | removeGit | readGoMod | writeGoMod | walk | copy
  deriving DecidableEq

/-- What the run receives from outside the file trees. -/
structure Env where
  /-- The argument `args[0]`. -/
  projectName : GoString
  /-- The text on standard input. -/
  stdin : GoString
  /-- Whether `os.Getwd` returns an error. -/
  getwdFails : Bool
  /-- The path of the directory that `os.MkdirTemp` creates, `none` when it
  returns an error. -/
  tempDir : Option GoString
  /-- The tree that `git clone` leaves in the temporary directory, `none` when
  the command fails, which leaves the directory as it was. -/
  clone : Option Dir
  /-- Whether `os.RemoveAll(gitDir)` returns an error. -/
  removeGitFails : Bool
  /-- Where `os.MkdirTemp` creates the temporary directory when that is inside
  the target directory (the target is `os.TempDir()` or a directory above it):
  its path relative to the target directory, and `none` when it is elsewhere.
  The name is new, and the template has no entry at this path. -/
  tempInTarget : Option (List GoString)
  deriving DecidableEq

/-- The two places of the file system that the run touches. The temporary
directory is kept apart from the target also when it lies inside the target
directory; `targetEntry` puts the two together. -/
structure World where
  /-- What `filepath.Join(currentDir, projectName)` names, `none` when nothing,
  with the temporary directory left out of its listing. -/
  target : Option Entry
  /-- The listing of the temporary directory, `none` when it does not exist. -/
  temp : Option Dir
  deriving DecidableEq

/-- What `filepath.Join(currentDir, projectName)` names in the file system: the
target of the world, with the temporary directory in its listing when that
exists and lies inside the target directory. -/
def targetEntry (env : Env) (w : World) : Option Entry :=
  match w.target, env.tempInTarget, w.temp with
  | some (.dir d), some rel, some scratch => some (.dir (Dir.graft rel scratch d))
  | t, _, _ => t

/-- The end of a run: the exit status of the process, the stage that ended it
with `os.Exit(1)` if one did, and the file system it leaves. -/
structure Result where
  status : Nat
  failed : Option Stage
  world : World
  deriving DecidableEq

/-- `os.Exit(1)` after the message of `stage`: the process ends at once and
deferred calls do not run. -/
def osExit (stage : Stage) (w : World) : Result := ⟨1, some stage, w⟩

/-- The return of `Run`: the deferred calls run, last deferred first, and the
process ends with status 0. -/
def returnFrom (deferred : List (World → World)) (w : World) : Result :=
  ⟨0, none, deferred.foldl (fun w f => f w) w⟩

/-- `os.MkdirAll(targetDir, 0755)`: the listing of the target directory after
the call, or the error. -/
def mkdirTarget : Option Entry → Except IOError Dir
  | none => .ok .nil
  | some (.dir d) => .ok d
  | some _ => .error .notDir

/-- The rewrite of `create.go:76-119` on the listing `scratch` of the temporary
directory `tempDir`: the `go.mod` file at its top is read, rewritten and
written back, then the walk rewrites the `.go` and `.templ` files. The result is
the listing afterwards and the stage at which the process exits, if it does. -/
def rewriteModulePath (newModulePath tempDir : GoString) (scratch : Dir) :
    Dir × Option Stage :=
  match scratch.readFile "go.mod".toList with
  | .error _ => (scratch, some .readGoMod)
  | .ok goModContent =>
    let updatedContent := ReplaceAll goModContent oldModulePath newModulePath
    match scratch.writeFile "go.mod".toList updatedContent with
    | .error _ => (scratch, some .writeGoMod)
    | .ok scratch =>
      let walked := walk newModulePath tempDir scratch
      match walked.2 with
      | some _ => (walked.1, some .walk)
      | none => (walked.1, none)

/-- The function `createCmd.Run` of `create.go:19`. -/
def Run (env : Env) (w : World) : Result :=
  let projectName := env.projectName
  if projectName = [] then osExit .projectName w else
  let line := ReadString '\n' env.stdin
  if line.2 then osExit .readUsername w else
  let githubUsername := TrimSpace line.1
  if githubUsername = [] then osExit .username w else
  if env.getwdFails then osExit .getwd w else
  match mkdirTarget w.target with
  | .error _ => osExit .mkdirTarget w
  | .ok targetDir =>
    let w := { w with target := some (.dir targetDir) }
    match env.tempDir with
    | none => osExit .mkdirTemp w
    | some tempDir =>
      let w := { w with temp := some .nil }
      -- defer os.RemoveAll(tempDir)
      let deferred : List (World → World) := [fun w => { w with temp := none }]
      match env.clone with
      | none => osExit .clone w
      | some tree =>
        let w := { w with temp := some tree }
        if env.removeGitFails then osExit .removeGit w else
        let scratch := tree.removeAll ".git".toList
        let w := { w with temp := some scratch }
        let rewritten :=
          rewriteModulePath (newModulePath githubUsername projectName) tempDir scratch
        let w := { w with temp := some rewritten.1 }
        match rewritten.2 with
        | some stage => osExit stage w
        | none =>
          let copied := copyDir rewritten.1 targetDir
          let w := { w with target := some (.dir copied.1) }
          match copied.2 with
          | some _ => osExit .copy w
          | none => returnFrom deferred w

/-- Whether the last name of `path` ends in `.go` or `.templ`. -/
def hasSourceExt (path : List GoString) : Bool :=
  match path.getLast? with
  | some name => HasSuffix name ".go".toList || HasSuffix name ".templ".toList
  | none => false

/-- Whether the rewrite changes the file at `path`, relative to the temporary
directory: the `go.mod` at the top, and the files named `*.go` and `*.templ`. -/
def rewrites (path : List GoString) : Bool :=
  path == ["go.mod".toList] || hasSourceExt path

/-! ## Sample inputs -/

/-- A clone of a small template: the `.git` directory, a hidden file, the
manifest, and a source file that imports a package of the template. -/
def sampleTree : Dir :=
  .sub ".git".toList (.file "HEAD".toList "ref: refs/heads/main".toList .nil)
  (.file ".gitignore".toList "tmp/".toList
  (.file "go.mod".toList "module github.com/dtg-lucifer/goth-stack-starter".toList
  (.file "main.go".toList
    "import \"github.com/dtg-lucifer/goth-stack-starter/internal\"".toList .nil)))

/-- The run `create myapp` by the user `alice`, in which every call succeeds. -/
def sampleEnv : Env :=
  { projectName := "myapp".toList, stdin := "alice\n".toList, getwdFails := false,
    tempDir := some "/tmp/goth-template-1".toList, clone := some sampleTree,
    removeGitFails := false, tempInTarget := none }

/-- A file system in which neither the target nor the temporary directory exists. -/
def emptyWorld : World := ⟨none, none⟩

/-- A source tree with a hidden directory. -/
def hiddenDirTree : Dir :=
  .sub ".github".toList (.file "ci.yml".toList "on: push".toList .nil)
  (.file "main.go".toList "package main".toList .nil)

/-- A clone in which `go.mod` cannot be written. -/
def readonlyModTree : Dir :=
  .readonly "go.mod".toList "module github.com/dtg-lucifer/goth-stack-starter".toList
  (.file "main.go".toList "package main".toList .nil)

/-- A clone in which `main.go` cannot be written. -/
def readonlySourceTree : Dir :=
  .file "go.mod".toList "module github.com/dtg-lucifer/goth-stack-starter".toList
  (.readonly "main.go".toList
    "import \"github.com/dtg-lucifer/goth-stack-starter/internal\"".toList .nil)

/-- The run `create .` by the user `alice` in the directory `/tmp`, in which
`os.MkdirTemp` creates `/tmp/goth-template-1` and `git clone` fails. -/
def tmpEnv : Env :=
  { projectName := ".".toList, stdin := "alice\n".toList, getwdFails := false,
    tempDir := some "/tmp/goth-template-1".toList, clone := none,
    removeGitFails := false, tempInTarget := some ["goth-template-1".toList] }

/-- A file system in which the target directory holds one file. -/
def tmpWorld : World := ⟨some (.dir (.file "notes.txt".toList "x".toList .nil)), none⟩

/-- A scratch tree with a second `go.mod` below the top. -/
def nestedModTree : Dir :=
  .file "go.mod".toList "module github.com/dtg-lucifer/goth-stack-starter".toList
  (.sub "tools".toList
    (.file "go.mod".toList "module github.com/dtg-lucifer/goth-stack-starter/tools".toList .nil)
  .nil)

/-! ## Properties of the replacement -/

theorem replaceScan_fuel (old new : GoString) (hold : old ≠ []) :
    ∀ (f1 f2 : Nat) (s : GoString), s.length < f1 → s.length < f2 →
      replaceScan old new f1 s = replaceScan old new f2 s := by
  intro f1
  induction f1 with
  | zero => intro f2 s h1; omega
  | succ f1 ih =>
    intro f2 s h1 h2
    cases f2 with
    | zero => omega
    | succ f2 =>
      simp only [replaceScan]
      by_cases hp : old.isPrefixOf s = true
      · have hpre : old <+: s := List.isPrefixOf_iff_prefix.mp hp
        have hlen : 0 < old.length := List.length_pos.mpr hold
        have hle : old.length ≤ s.length := hpre.length_le
        have hd : (s.drop old.length).length < f1 := by
          rw [List.length_drop]; omega
        have hd2 : (s.drop old.length).length < f2 := by
          rw [List.length_drop]; omega
        rw [if_pos hp, if_pos hp, ih f2 _ hd hd2]
      · rw [if_neg hp, if_neg hp]
        cases s with
        | nil => rfl
        | cons c t =>
          simp only [List.length_cons] at h1 h2
          show c :: replaceScan old new f1 t = c :: replaceScan old new f2 t
          rw [ih f2 t (by omega) (by omega)]

theorem ReplaceAll_nil (old new : GoString) (hold : old ≠ []) :
    ReplaceAll [] old new = [] := by
  cases old with
  | nil => exact absurd rfl hold
  | cons a t => simp [ReplaceAll, replaceScan, List.isPrefixOf]

theorem ReplaceAll_of_head (old new s : GoString) (hold : old ≠ []) (h : old <+: s) :
    ReplaceAll s old new = new ++ ReplaceAll (s.drop old.length) old new := by
  have hp : old.isPrefixOf s = true := List.isPrefixOf_iff_prefix.mpr h
  have hlen : 0 < old.length := List.length_pos.mpr hold
  have hle : old.length ≤ s.length := h.length_le
  have key : replaceScan old new (s.length + 1) s
      = new ++ replaceScan old new s.length (s.drop old.length) := by
    simp only [replaceScan, if_pos hp]
  unfold ReplaceAll
  rw [if_neg hold, if_neg hold, key,
    replaceScan_fuel old new hold s.length ((s.drop old.length).length + 1)
      (s.drop old.length) (by rw [List.length_drop]; omega) (by omega)]

theorem ReplaceAll_cons (old new : GoString) (c : Char) (t : GoString) (hold : old ≠ [])
    (h : ¬ old <+: c :: t) :
    ReplaceAll (c :: t) old new = c :: ReplaceAll t old new := by
  have hp : ¬ old.isPrefixOf (c :: t) = true := fun hp => h (List.isPrefixOf_iff_prefix.mp hp)
  simp only [ReplaceAll, if_neg hold, replaceScan, if_neg hp, List.length_cons]

theorem ReplaceAll_of_no_occurrence (old new : GoString) :
    ∀ c : GoString, ¬ old <:+: c → ReplaceAll c old new = c := by
  intro c
  induction c with
  | nil =>
    intro h
    exact ReplaceAll_nil old new (fun h0 => h (by rw [h0]))
  | cons a t ih =>
    intro h
    have hold : old ≠ [] := fun h0 => h (by rw [h0]; exact List.nil_infix)
    rw [ReplaceAll_cons old new a t hold (fun hp => h hp.isInfix),
      ih (fun hi => h (List.infix_cons hi))]

/-- A head of `u ++ c :: v` that does not contain `c` lies within `u`. -/
theorem head_of_append_sep (old u v : GoString) (c : Char) (hc : c ∉ old)
    (h : old <+: u ++ c :: v) : old <+: u := by
  rcases List.prefix_or_prefix_of_prefix h (List.prefix_append u (c :: v)) with h1 | h1
  · exact h1
  · obtain ⟨t, rfl⟩ := h1
    rw [List.prefix_append_right_inj, List.prefix_cons_iff] at h
    rcases h with rfl | ⟨t2, rfl, _⟩
    · simp
    · exact absurd (by simp) hc

/-- A character that does not occur in `old` splits the replacement. -/
theorem ReplaceAll_sep (old new : GoString) (hold : old ≠ []) (c : Char) (hc : c ∉ old)
    (v : GoString) : ∀ (n : Nat) (u : GoString), u.length = n →
      ReplaceAll (u ++ c :: v) old new = ReplaceAll u old new ++ c :: ReplaceAll v old new := by
  intro n
  induction n using Nat.strong_induction_on with
  | _ n ih =>
    intro u hn
    by_cases hp : old <+: u ++ c :: v
    · have hu : old <+: u := head_of_append_sep old u v c hc hp
      have hlen : 0 < old.length := List.length_pos.mpr hold
      have hle : old.length ≤ u.length := hu.length_le
      rw [ReplaceAll_of_head old new _ hold hp, ReplaceAll_of_head old new u hold hu,
        List.drop_append_of_le_length hle,
        ih (u.drop old.length).length (by rw [List.length_drop]; omega) _ rfl,
        List.append_assoc]
    · cases u with
      | nil =>
        rw [List.nil_append] at hp ⊢
        rw [ReplaceAll_cons old new c v hold hp, ReplaceAll_nil old new hold, List.nil_append]
      | cons a u2 =>
        have hp2 : ¬ old <+: a :: u2 := fun h2 => hp (h2.trans (List.prefix_append _ _))
        rw [List.cons_append] at hp ⊢
        rw [ReplaceAll_cons old new a _ hold hp, ReplaceAll_cons old new a u2 hold hp2,
          ih u2.length (by simp at hn; omega) u2 rfl, List.cons_append]

theorem oldModulePath_ne_nil : oldModulePath ≠ [] := by decide

theorem newModulePath_eq (a p : GoString) :
    newModulePath a p = "github.com/".toList ++ a ++ "/".toList ++ p := by
  simp [newModulePath, Sprintf]

theorem overlapFree_spec (old new : GoString) (h : overlapFree old new = true)
    (s : GoString) (hs : s <:+ new) (hne : s ≠ []) : ¬ s <+: old ∧ ¬ old <+: s := by
  unfold overlapFree at h
  rw [List.all_eq_true] at h
  have h1 := h s ((List.mem_tails s new).mpr hs)
  cases s with
  | nil => exact absurd rfl hne
  | cons a t =>
    simp only [List.isEmpty_cons, Bool.false_or, Bool.not_eq_true', Bool.or_eq_false_iff] at h1
    constructor
    · intro hp
      have := List.isPrefixOf_iff_prefix.mpr hp
      rw [h1.1] at this
      exact Bool.noConfusion this
    · intro hp
      have := List.isPrefixOf_iff_prefix.mpr hp
      rw [h1.2] at this
      exact Bool.noConfusion this

/-- With `overlapFree`, no occurrence of `old` starts inside a copy of `new`. -/
theorem no_head_in_new (old new : GoString) (hof : overlapFree old new = true)
    (s : GoString) (hs : s <:+ new) (hne : s ≠ []) (z : GoString) : ¬ old <+: s ++ z := by
  intro h
  have h2 := overlapFree_spec old new hof s hs hne
  rcases List.prefix_or_prefix_of_prefix h (List.prefix_append s z) with h1 | h1
  · exact h2.2 h1
  · exact h2.1 h1

/-- An end `y` of `old` that begins the rewritten content begins the content. -/
theorem head_of_replaced (old new : GoString) (hold : old ≠ []) (hnew : new ≠ [])
    (hof : overlapFree old new = true)
    (hmid : ∀ y : GoString, y <:+ old.tail → y ≠ [] → ∀ z : GoString, ¬ y <+: new ++ z) :
    ∀ (c y : GoString), y <:+ old → y ≠ [] → y <+: ReplaceAll c old new → y <+: c := by
  intro c
  induction c with
  | nil =>
    intro y _ hne hy
    rw [ReplaceAll_nil old new hold, List.prefix_nil] at hy
    exact absurd hy hne
  | cons c0 c1 ih =>
    intro y hys hne hy
    by_cases hp : old <+: c0 :: c1
    · exfalso
      rw [ReplaceAll_of_head old new _ hold hp] at hy
      cases old with
      | nil => exact hold rfl
      | cons o0 o1 =>
        rcases List.suffix_cons_iff.mp hys with rfl | hys2
        · exact no_head_in_new _ new hof new (List.suffix_refl _) hnew _ hy
        · exact hmid y hys2 hne _ hy
    · rw [ReplaceAll_cons old new c0 c1 hold hp] at hy
      rcases List.prefix_cons_iff.mp hy with rfl | ⟨t, rfl, ht⟩
      · exact absurd rfl hne
      · rw [List.prefix_cons_inj]
        by_cases ht0 : t = []
        · rw [ht0]; exact List.nil_prefix
        · exact ih t ((List.suffix_cons c0 t).trans hys) ht0 ht

theorem no_head_of_replaced (old new : GoString) (hold : old ≠ []) (hnew : new ≠ [])
    (hof : overlapFree old new = true)
    (hmid : ∀ y : GoString, y <:+ old.tail → y ≠ [] → ∀ z : GoString, ¬ y <+: new ++ z)
    (c : GoString) : ¬ old <+: ReplaceAll c old new := by
  intro h
  have hc := head_of_replaced old new hold hnew hof hmid c old (List.suffix_refl _) hold h
  rw [ReplaceAll_of_head old new _ hold hc] at h
  exact no_head_in_new old new hof new (List.suffix_refl _) hnew _ h

theorem ReplaceAll_new_append (old new : GoString) (hold : old ≠ [])
    (hof : overlapFree old new = true) (z : GoString) :
    ∀ s : GoString, s <:+ new →
      ReplaceAll (s ++ z) old new = s ++ ReplaceAll z old new := by
  intro s
  induction s with
  | nil => intro _; rfl
  | cons a t ih =>
    intro hs
    have hn := no_head_in_new old new hof (a :: t) hs (List.cons_ne_nil _ _) z
    rw [List.cons_append] at hn ⊢
    rw [ReplaceAll_cons old new a _ hold hn, ih ((List.suffix_cons a t).trans hs),
      List.cons_append]

theorem ReplaceAll_idem (old new : GoString) (hold : old ≠ []) (hnew : new ≠ [])
    (hof : overlapFree old new = true)
    (hmid : ∀ y : GoString, y <:+ old.tail → y ≠ [] → ∀ z : GoString, ¬ y <+: new ++ z) :
    ∀ (n : Nat) (c : GoString), c.length = n →
      ReplaceAll (ReplaceAll c old new) old new = ReplaceAll c old new := by
  intro n
  induction n using Nat.strong_induction_on with
  | _ n ih =>
    intro c hn
    by_cases hp : old <+: c
    · have hlen : 0 < old.length := List.length_pos.mpr hold
      have hle : old.length ≤ c.length := hp.length_le
      rw [ReplaceAll_of_head old new c hold hp,
        ReplaceAll_new_append old new hold hof _ new (List.suffix_refl _),
        ih (c.drop old.length).length (by rw [List.length_drop]; omega) _ rfl]
    · cases c with
      | nil => rw [ReplaceAll_nil old new hold, ReplaceAll_nil old new hold]
      | cons c0 c1 =>
        have hb := no_head_of_replaced old new hold hnew hof hmid (c0 :: c1)
        rw [ReplaceAll_cons old new c0 c1 hold hp] at hb ⊢
        rw [ReplaceAll_cons old new c0 _ hold hb,
          ih c1.length (by simp at hn; omega) c1 rfl]

/-- No proper end of the template's module path begins with `gi`, or is `g`. -/
theorem oldModulePath_mid (y : GoString) (hy : y <:+ oldModulePath.tail) (hne : y ≠ [])
    (w : GoString) : ¬ y <+: 'g' :: 'i' :: w := by
  have hall : ∀ t ∈ oldModulePath.tail.tails,
      t ≠ [] → t.head? ≠ some 'g' ∨ (t.tail ≠ [] ∧ t.tail.head? ≠ some 'i') := by decide
  have h1 := hall y ((List.mem_tails y _).mpr hy) hne
  intro hp
  rcases List.prefix_cons_iff.mp hp with rfl | ⟨t, rfl, ht⟩
  · exact hne rfl
  · rcases List.prefix_cons_iff.mp ht with rfl | ⟨t2, rfl, _⟩
    · simp at h1
    · simp at h1

theorem newModulePath_shape (a p : GoString) :
    ∃ w, newModulePath a p = 'g' :: 'i' :: w := by
  rw [newModulePath_eq]
  exact ⟨_, rfl⟩

/-! ## Properties of the file tree operations -/

theorem Dir.get?_cons (name : GoString) (e : Entry) (rest : Dir) (n : GoString) :
    (Dir.cons name e rest).get? n = if name = n then some e else rest.get? n := by
  cases e <;> rfl

theorem Dir.get?_set_self (d : Dir) (name : GoString) (e : Entry) :
    (d.set name e).get? name = some e := by
  induction d with
  | nil => simp [Dir.set, Dir.get?_cons]
  | file n c rest ih =>
    by_cases h : n = name <;> simp [Dir.set, Dir.get?_cons, Dir.get?, h, ih]
  | readonly n c rest ih =>
    by_cases h : n = name <;> simp [Dir.set, Dir.get?_cons, Dir.get?, h, ih]
  | locked n rest ih =>
    by_cases h : n = name <;> simp [Dir.set, Dir.get?_cons, Dir.get?, h, ih]
  | sub n ch rest _ ih =>
    by_cases h : n = name <;> simp [Dir.set, Dir.get?_cons, Dir.get?, h, ih]

theorem Dir.get?_set_other (d : Dir) (name : GoString) (e : Entry) (n : GoString)
    (hn : name ≠ n) : (d.set name e).get? n = d.get? n := by
  induction d with
  | nil => simp [Dir.set, Dir.get?_cons, Dir.get?, hn]
  | file m c rest ih =>
    by_cases h : m = name
    · subst h; simp [Dir.set, Dir.get?_cons, Dir.get?, hn]
    · simp [Dir.set, Dir.get?, h, ih]
  | readonly m c rest ih =>
    by_cases h : m = name
    · subst h; simp [Dir.set, Dir.get?_cons, Dir.get?, hn]
    · simp [Dir.set, Dir.get?, h, ih]
  | locked m rest ih =>
    by_cases h : m = name
    · subst h; simp [Dir.set, Dir.get?_cons, Dir.get?, hn]
    · simp [Dir.set, Dir.get?, h, ih]
  | sub m ch rest _ ih =>
    by_cases h : m = name
    · subst h; simp [Dir.set, Dir.get?_cons, Dir.get?, hn]
    · simp [Dir.set, Dir.get?, h, ih]

theorem Dir.find?_cons (d : Dir) (n : GoString) (q : List GoString) :
    d.find? (n :: q) = match d.get? n with
      | some e => e.find? q
      | none => none := rfl

theorem Dir.mkdirAll_other (d d1 : Dir) (name n : GoString) (h : d.mkdirAll name = .ok d1)
    (hn : name ≠ n) : d1.get? n = d.get? n := by
  unfold Dir.mkdirAll at h
  split at h
  · cases h; rfl
  · cases h; exact Dir.get?_set_other d name _ n hn
  · cases h

theorem Dir.writeFile_ok (d d1 : Dir) (name c : GoString) (h : d.writeFile name c = .ok d1) :
    d1 = d.set name (.file c) := by
  unfold Dir.writeFile at h
  split at h <;> cases h <;> rfl

/-- A call of `copyDir` leaves alone the entries of `dst` whose names are not in `src`. -/
theorem copyDir_other (src : Dir) : ∀ (dst : Dir) (n : GoString), n ∉ src.names →
    (copyDir src dst).1.get? n = dst.get? n := by
  induction src with
  | nil => intro dst n _; rfl
  | file name c rest ih =>
    intro dst n hn
    simp only [Dir.names, List.mem_cons, not_or] at hn
    simp only [copyDir]
    split
    · exact ih dst n hn.2
    · cases hw : dst.writeFile name c with
      | error e => rfl
      | ok dst1 =>
        simp only []
        rw [ih dst1 n hn.2, Dir.writeFile_ok dst dst1 name c hw,
          Dir.get?_set_other dst name _ n (fun h => hn.1 h.symm)]
  | readonly name c rest ih =>
    intro dst n hn
    simp only [Dir.names, List.mem_cons, not_or] at hn
    simp only [copyDir]
    split
    · exact ih dst n hn.2
    · cases hw : dst.writeFile name c with
      | error e => rfl
      | ok dst1 =>
        simp only []
        rw [ih dst1 n hn.2, Dir.writeFile_ok dst dst1 name c hw,
          Dir.get?_set_other dst name _ n (fun h => hn.1 h.symm)]
  | locked name rest ih =>
    intro dst n hn
    simp only [Dir.names, List.mem_cons, not_or] at hn
    simp only [copyDir]
    split
    · exact ih dst n hn.2
    · rfl
  | sub name ch rest _ ih =>
    intro dst n hn
    simp only [Dir.names, List.mem_cons, not_or] at hn
    have hne : name ≠ n := fun h => hn.1 h.symm
    simp only [copyDir]
    cases hm : dst.mkdirAll name with
    | error e => rfl
    | ok dst1 =>
      simp only []
      split
      · simp only []
        rw [Dir.get?_set_other _ name _ n hne, Dir.mkdirAll_other dst dst1 name n hm hne]
      · rw [ih _ n hn.2, Dir.get?_set_other _ name _ n hne,
          Dir.mkdirAll_other dst dst1 name n hm hne]

theorem copyDir_sub_ok (name : GoString) (ch rest dst : Dir)
    (h : (copyDir (.sub name ch rest) dst).2 = none) :
    ∃ dst1, dst.mkdirAll name = .ok dst1 ∧ (copyDir ch (dst1.subdir name)).2 = none ∧
      copyDir (.sub name ch rest) dst
        = copyDir rest (dst1.set name (.dir (copyDir ch (dst1.subdir name)).1)) := by
  simp only [copyDir] at h ⊢
  cases hm : dst.mkdirAll name with
  | error e => rw [hm] at h; cases h
  | ok dst1 =>
    rw [hm] at h
    simp only [] at h ⊢
    cases hr : (copyDir ch (dst1.subdir name)).2 with
    | some e => rw [hr] at h; cases h
    | none => exact ⟨dst1, rfl, hr, rfl⟩

theorem copyDir_file_ok (name c : GoString) (rest dst : Dir)
    (h : (copyDir (.file name c rest) dst).2 = none) :
    (HasPrefix name ".".toList = true ∧ copyDir (.file name c rest) dst = copyDir rest dst) ∨
    (HasPrefix name ".".toList = false ∧
      copyDir (.file name c rest) dst = copyDir rest (dst.set name (.file c))) := by
  simp only [copyDir] at h ⊢
  cases hh : HasPrefix name ".".toList with
  | true => left; simp
  | false =>
    right
    rw [hh] at h
    refine ⟨rfl, ?_⟩
    simp only [Bool.false_eq_true, if_false] at h ⊢
    cases hw : dst.writeFile name c with
    | error e => rw [hw] at h; cases h
    | ok dst1 =>
      have hd := Dir.writeFile_ok dst dst1 name c hw
      subst hd
      rfl

theorem copyDir_readonly_ok (name c : GoString) (rest dst : Dir)
    (h : (copyDir (.readonly name c rest) dst).2 = none) :
    (HasPrefix name ".".toList = true ∧
      copyDir (.readonly name c rest) dst = copyDir rest dst) ∨
    (HasPrefix name ".".toList = false ∧
      copyDir (.readonly name c rest) dst = copyDir rest (dst.set name (.file c))) := by
  simp only [copyDir] at h ⊢
  cases hh : HasPrefix name ".".toList with
  | true => left; simp
  | false =>
    right
    rw [hh] at h
    refine ⟨rfl, ?_⟩
    simp only [Bool.false_eq_true, if_false] at h ⊢
    cases hw : dst.writeFile name c with
    | error e => rw [hw] at h; cases h
    | ok dst1 =>
      have hd := Dir.writeFile_ok dst dst1 name c hw
      subst hd
      rfl

theorem copyDir_locked_ok (name : GoString) (rest dst : Dir)
    (h : (copyDir (.locked name rest) dst).2 = none) :
    HasPrefix name ".".toList = true ∧ copyDir (.locked name rest) dst = copyDir rest dst := by
  simp only [copyDir] at h ⊢
  cases hh : HasPrefix name ".".toList with
  | true => simp
  | false => rw [hh] at h; simp at h

theorem Dir.WF_not_mem (name : GoString) (rest : Dir)
    (h : (!rest.names.contains name) = true) : name ∉ rest.names := by
  simpa using h

/-- What a successful `copyDir` leaves at the paths of the source tree. -/
theorem copyDir_spec (src : Dir) : ∀ (dst : Dir), src.WF = true → (copyDir src dst).2 = none →
    ∀ (path : List GoString) (e : Entry), path ≠ [] → src.find? path = some e →
      (∀ c, e = .file c →
        (∀ name, path.getLast? = some name → HasPrefix name ".".toList = false) →
          (copyDir src dst).1.find? path = some (.file c)) ∧
      (∀ ch, e = .dir ch → ∃ ch2, (copyDir src dst).1.find? path = some (.dir ch2)) ∧
      (e = .locked → ∀ name, path.getLast? = some name → HasPrefix name ".".toList = true) ∧
      (∀ c, e = .readonly c →
        (∀ name, path.getLast? = some name → HasPrefix name ".".toList = false) →
          (copyDir src dst).1.find? path = some (.file c)) := by
  induction src with
  | nil =>
    intro dst _ _ path e hp hf
    cases path with
    | nil => exact absurd rfl hp
    | cons n q => simp [Dir.find?_cons, Dir.get?] at hf
  | file name c rest ih =>
    intro dst hwf hok path e hp hf
    simp only [Dir.WF, Bool.and_eq_true] at hwf
    have hnot := Dir.WF_not_mem name rest hwf.1
    cases path with
    | nil => exact absurd rfl hp
    | cons n q =>
      by_cases hn : name = n
      · subst hn
        rw [Dir.find?_cons] at hf
        simp only [Dir.get?, if_true] at hf
        cases q with
        | cons n2 q2 => simp [Entry.find?] at hf
        | nil =>
          simp only [Entry.find?, Option.some.injEq] at hf
          subst hf
          refine ⟨?_, fun ch h => (by cases h), fun h => (by cases h),
            fun c2 h => (by cases h)⟩
          intro c2 hc hvis
          cases hc
          rcases copyDir_file_ok name c rest dst hok with ⟨hh, _⟩ | ⟨_, heq⟩
          · rw [hvis name rfl] at hh; cases hh
          · rw [heq, Dir.find?_cons, copyDir_other rest _ name hnot, Dir.get?_set_self]
            rfl
      · have hsrc : (Dir.file name c rest).find? (n :: q) = rest.find? (n :: q) := by
          simp [Dir.find?_cons, Dir.get?, hn]
        rw [hsrc] at hf
        rcases copyDir_file_ok name c rest dst hok with ⟨_, heq⟩ | ⟨_, heq⟩
        · rw [heq] at hok ⊢
          exact ih dst hwf.2 hok (n :: q) e hp hf
        · rw [heq] at hok ⊢
          exact ih _ hwf.2 hok (n :: q) e hp hf
  | readonly name c rest ih =>
    intro dst hwf hok path e hp hf
    simp only [Dir.WF, Bool.and_eq_true] at hwf
    have hnot := Dir.WF_not_mem name rest hwf.1
    cases path with
    | nil => exact absurd rfl hp
    | cons n q =>
      by_cases hn : name = n
      · subst hn
        rw [Dir.find?_cons] at hf
        simp only [Dir.get?, if_true] at hf
        cases q with
        | cons n2 q2 => simp [Entry.find?] at hf
        | nil =>
          simp only [Entry.find?, Option.some.injEq] at hf
          subst hf
          refine ⟨fun c2 h => (by cases h), fun ch h => (by cases h), fun h => (by cases h),
            ?_⟩
          intro c2 hc hvis
          cases hc
          rcases copyDir_readonly_ok name c rest dst hok with ⟨hh, _⟩ | ⟨_, heq⟩
          · rw [hvis name rfl] at hh; cases hh
          · rw [heq, Dir.find?_cons, copyDir_other rest _ name hnot, Dir.get?_set_self]
            rfl
      · have hsrc : (Dir.readonly name c rest).find? (n :: q) = rest.find? (n :: q) := by
          simp [Dir.find?_cons, Dir.get?, hn]
        rw [hsrc] at hf
        rcases copyDir_readonly_ok name c rest dst hok with ⟨_, heq⟩ | ⟨_, heq⟩
        · rw [heq] at hok ⊢
          exact ih dst hwf.2 hok (n :: q) e hp hf
        · rw [heq] at hok ⊢
          exact ih _ hwf.2 hok (n :: q) e hp hf
  | locked name rest ih =>
    intro dst hwf hok path e hp hf
    simp only [Dir.WF, Bool.and_eq_true] at hwf
    obtain ⟨hhid, heq⟩ := copyDir_locked_ok name rest dst hok
    cases path with
    | nil => exact absurd rfl hp
    | cons n q =>
      by_cases hn : name = n
      · subst hn
        rw [Dir.find?_cons] at hf
        simp only [Dir.get?, if_true] at hf
        cases q with
        | cons n2 q2 => simp [Entry.find?] at hf
        | nil =>
          simp only [Entry.find?, Option.some.injEq] at hf
          subst hf
          refine ⟨fun c h => (by cases h), fun ch h => (by cases h), fun _ nm hnm => ?_,
            fun c h => (by cases h)⟩
          simp only [List.getLast?_singleton, Option.some.injEq] at hnm
          subst hnm
          exact hhid
      · have hsrc : (Dir.locked name rest).find? (n :: q) = rest.find? (n :: q) := by
          simp [Dir.find?_cons, Dir.get?, hn]
        rw [hsrc] at hf
        rw [heq] at hok ⊢
        exact ih dst hwf.2 hok (n :: q) e hp hf
  | sub name ch rest ihc ihr =>
    intro dst hwf hok path e hp hf
    simp only [Dir.WF, Bool.and_eq_true] at hwf
    have hnot := Dir.WF_not_mem name rest hwf.1.1
    obtain ⟨dst1, _, hokc, heq⟩ := copyDir_sub_ok name ch rest dst hok
    cases path with
    | nil => exact absurd rfl hp
    | cons n q =>
      by_cases hn : name = n
      · subst hn
        rw [Dir.find?_cons] at hf
        simp only [Dir.get?, if_true] at hf
        have hdst : (copyDir (Dir.sub name ch rest) dst).1.find? (name :: q)
            = (copyDir ch (dst1.subdir name)).1.find? q := by
          rw [heq, Dir.find?_cons, copyDir_other rest _ name hnot, Dir.get?_set_self]
          rfl
        rw [hdst]
        cases q with
        | nil =>
          simp only [Entry.find?, Option.some.injEq] at hf
          subst hf
          exact ⟨fun c h => (by cases h), fun _ _ => ⟨_, rfl⟩, fun h => (by cases h),
            fun c h => (by cases h)⟩
        | cons n2 q2 =>
          have h2 := ihc (dst1.subdir name) hwf.1.2 hokc (n2 :: q2) e (List.cons_ne_nil _ _) hf
          refine ⟨fun c hc hvis => h2.1 c hc (fun nm hnm => hvis nm ?_), h2.2.1,
            fun hl nm hnm => h2.2.2.1 hl nm ?_,
            fun c hc hvis => h2.2.2.2 c hc (fun nm hnm => hvis nm ?_)⟩
          · rw [List.getLast?_cons_cons]
            exact hnm
          · rw [List.getLast?_cons_cons] at hnm
            exact hnm
          · rw [List.getLast?_cons_cons]
            exact hnm
      · have hsrc : (Dir.sub name ch rest).find? (n :: q) = rest.find? (n :: q) := by
          simp [Dir.find?_cons, Dir.get?, hn]
        rw [hsrc] at hf
        rw [heq] at hok ⊢
        exact ihr _ hwf.2 hok (n :: q) e hp hf

/-! ## Properties of the walk -/

theorem HasSuffix_Join (dir name suf : GoString) (h : '/' ∉ suf) :
    HasSuffix (Join dir name) suf = HasSuffix name suf := by
  unfold HasSuffix Join
  rw [Bool.eq_iff_iff, List.isSuffixOf_iff_suffix, List.isSuffixOf_iff_suffix]
  constructor
  · intro hs
    have h1 : suf.reverse <+: name.reverse ++ '/' :: dir.reverse := by
      have := hs.reverse
      simpa using this
    have h2 := head_of_append_sep suf.reverse name.reverse dir.reverse '/' (by simpa using h) h1
    have := h2.reverse
    simpa using this
  · intro hs
    exact hs.trans ⟨dir ++ ['/'], by simp⟩

theorem hasExt_Join (dir name : GoString) :
    (HasSuffix (Join dir name) ".go".toList || HasSuffix (Join dir name) ".templ".toList)
      = hasSourceExt [name] := by
  rw [HasSuffix_Join dir name _ (by decide), HasSuffix_Join dir name _ (by decide)]
  rfl

theorem hasSourceExt_cons (n n2 : GoString) (q : List GoString) :
    hasSourceExt (n :: n2 :: q) = hasSourceExt (n2 :: q) := by
  simp [hasSourceExt, List.getLast?_cons_cons]

/-- What a walk that returns no error leaves in the files of the tree. -/
theorem walk_spec (newPath : GoString) (d : Dir) : ∀ (dp : GoString),
    (walk newPath dp d).2 = none →
    ∀ (path : List GoString) (c : GoString), d.find? path = some (.file c) →
      (walk newPath dp d).1.find? path
        = some (.file (if hasSourceExt path then ReplaceAll c oldModulePath newPath else c)) := by
  induction d with
  | nil =>
    intro dp _ path c hf
    cases path with
    | nil => simp [Dir.find?, Entry.find?] at hf
    | cons n q => simp [Dir.find?_cons, Dir.get?] at hf
  | file name c0 rest ih =>
    intro dp hok path c hf
    have hrest : (walk newPath dp rest).2 = none := by
      simp only [walk] at hok
      split at hok <;> exact hok
    cases path with
    | nil => simp [Dir.find?, Entry.find?] at hf
    | cons n q =>
      by_cases hn : name = n
      · subst hn
        rw [Dir.find?_cons] at hf
        simp only [Dir.get?, if_true] at hf
        cases q with
        | cons n2 q2 => simp [Entry.find?] at hf
        | nil =>
          simp only [Entry.find?, Option.some.injEq, Entry.file.injEq] at hf
          subst hf
          simp only [walk, hasExt_Join]
          split <;> simp [Dir.find?_cons, Dir.get?, Entry.find?, *]
      · have hsrc : (Dir.file name c0 rest).find? (n :: q) = rest.find? (n :: q) := by
          simp [Dir.find?_cons, Dir.get?, hn]
        rw [hsrc] at hf
        rw [← ih dp hrest (n :: q) c hf]
        simp only [walk]
        split <;> simp [Dir.find?_cons, Dir.get?, hn]
  | readonly name c0 rest ih =>
    intro dp hok path c hf
    have hext : ¬ (HasSuffix (Join dp name) ".go".toList
        || HasSuffix (Join dp name) ".templ".toList) = true := by
      intro hx
      simp only [walk, hx, if_true] at hok
      cases hok
    have hrest : (walk newPath dp rest).2 = none := by
      simp only [walk, hext, if_false] at hok
      exact hok
    cases path with
    | nil => simp [Dir.find?, Entry.find?] at hf
    | cons n q =>
      by_cases hn : name = n
      · subst hn
        rw [Dir.find?_cons] at hf
        simp only [Dir.get?, if_true] at hf
        cases q with
        | cons n2 q2 => simp [Entry.find?] at hf
        | nil => simp [Entry.find?] at hf
      · have hsrc : (Dir.readonly name c0 rest).find? (n :: q) = rest.find? (n :: q) := by
          simp [Dir.find?_cons, Dir.get?, hn]
        rw [hsrc] at hf
        rw [← ih dp hrest (n :: q) c hf]
        simp only [walk, hext, if_false]
        simp [Dir.find?_cons, Dir.get?, hn]
  | locked name rest ih =>
    intro dp hok path c hf
    have hext : ¬ (HasSuffix (Join dp name) ".go".toList
        || HasSuffix (Join dp name) ".templ".toList) = true := by
      intro hx
      simp only [walk, hx, if_true] at hok
      cases hok
    have hrest : (walk newPath dp rest).2 = none := by
      simp only [walk, hext, if_false] at hok
      exact hok
    cases path with
    | nil => simp [Dir.find?, Entry.find?] at hf
    | cons n q =>
      by_cases hn : name = n
      · subst hn
        rw [Dir.find?_cons] at hf
        simp only [Dir.get?, if_true] at hf
        cases q with
        | cons n2 q2 => simp [Entry.find?] at hf
        | nil => simp [Entry.find?] at hf
      · have hsrc : (Dir.locked name rest).find? (n :: q) = rest.find? (n :: q) := by
          simp [Dir.find?_cons, Dir.get?, hn]
        rw [hsrc] at hf
        rw [← ih dp hrest (n :: q) c hf]
        simp only [walk, hext, if_false]
        simp [Dir.find?_cons, Dir.get?, hn]
  | sub name ch rest ihc ihr =>
    intro dp hok path c hf
    have hch : (walk newPath (Join dp name) ch).2 = none := by
      simp only [walk] at hok
      cases hr : (walk newPath (Join dp name) ch).2 with
      | none => rfl
      | some e => rw [hr] at hok; cases hok
    have heq : walk newPath dp (.sub name ch rest)
        = (.sub name (walk newPath (Join dp name) ch).1 (walk newPath dp rest).1,
            (walk newPath dp rest).2) := by
      simp only [walk, hch]
    have hrest : (walk newPath dp rest).2 = none := by
      rw [heq] at hok; exact hok
    rw [heq]
    cases path with
    | nil => simp [Dir.find?, Entry.find?] at hf
    | cons n q =>
      by_cases hn : name = n
      · subst hn
        rw [Dir.find?_cons] at hf
        simp only [Dir.get?, if_true] at hf
        cases q with
        | nil => simp [Entry.find?] at hf
        | cons n2 q2 =>
          rw [hasSourceExt_cons, ← ihc (Join dp name) hch (n2 :: q2) c hf, Dir.find?_cons]
          simp only [Dir.get?, if_true]
          rfl
      · have hsrc : (Dir.sub name ch rest).find? (n :: q) = rest.find? (n :: q) := by
          simp [Dir.find?_cons, Dir.get?, hn]
        rw [hsrc] at hf
        rw [← ihr dp hrest (n :: q) c hf]
        simp [Dir.find?_cons, Dir.get?, hn]

/-- A walk that returns no error has met no read-only file named `*.go` or
`*.templ`, and leaves the read-only files as they were. -/
theorem walk_spec_readonly (newPath : GoString) (d : Dir) : ∀ (dp : GoString),
    (walk newPath dp d).2 = none →
    ∀ (path : List GoString) (c : GoString), d.find? path = some (.readonly c) →
      hasSourceExt path = false ∧ (walk newPath dp d).1.find? path = some (.readonly c) := by
  induction d with
  | nil =>
    intro dp _ path c hf
    cases path with
    | nil => simp [Dir.find?, Entry.find?] at hf
    | cons n q => simp [Dir.find?_cons, Dir.get?] at hf
  | file name c0 rest ih =>
    intro dp hok path c hf
    have hrest : (walk newPath dp rest).2 = none := by
      simp only [walk] at hok
      split at hok <;> exact hok
    cases path with
    | nil => simp [Dir.find?, Entry.find?] at hf
    | cons n q =>
      by_cases hn : name = n
      · subst hn
        rw [Dir.find?_cons] at hf
        simp only [Dir.get?, if_true] at hf
        cases q with
        | cons n2 q2 => simp [Entry.find?] at hf
        | nil => simp [Entry.find?] at hf
      · have hsrc : (Dir.file name c0 rest).find? (n :: q) = rest.find? (n :: q) := by
          simp [Dir.find?_cons, Dir.get?, hn]
        rw [hsrc] at hf
        refine ⟨(ih dp hrest (n :: q) c hf).1, ?_⟩
        rw [← (ih dp hrest (n :: q) c hf).2]
        simp only [walk]
        split <;> simp [Dir.find?_cons, Dir.get?, hn]
  | readonly name c0 rest ih =>
    intro dp hok path c hf
    have hext : ¬ (HasSuffix (Join dp name) ".go".toList
        || HasSuffix (Join dp name) ".templ".toList) = true := by
      intro hx
      simp only [walk, hx, if_true] at hok
      cases hok
    have hrest : (walk newPath dp rest).2 = none := by
      simp only [walk, hext, if_false] at hok
      exact hok
    cases path with
    | nil => simp [Dir.find?, Entry.find?] at hf
    | cons n q =>
      by_cases hn : name = n
      · subst hn
        rw [Dir.find?_cons] at hf
        simp only [Dir.get?, if_true] at hf
        cases q with
        | cons n2 q2 => simp [Entry.find?] at hf
        | nil =>
          simp only [Entry.find?, Option.some.injEq, Entry.readonly.injEq] at hf
          subst hf
          rw [hasExt_Join] at hext
          refine ⟨by simpa using hext, ?_⟩
          simp only [walk, hasExt_Join, hext, if_false]
          simp [Dir.find?_cons, Dir.get?, Entry.find?]
      · have hsrc : (Dir.readonly name c0 rest).find? (n :: q) = rest.find? (n :: q) := by
          simp [Dir.find?_cons, Dir.get?, hn]
        rw [hsrc] at hf
        refine ⟨(ih dp hrest (n :: q) c hf).1, ?_⟩
        rw [← (ih dp hrest (n :: q) c hf).2]
        simp only [walk, hext, if_false]
        simp [Dir.find?_cons, Dir.get?, hn]
  | locked name rest ih =>
    intro dp hok path c hf
    have hext : ¬ (HasSuffix (Join dp name) ".go".toList
        || HasSuffix (Join dp name) ".templ".toList) = true := by
      intro hx
      simp only [walk, hx, if_true] at hok
      cases hok
    have hrest : (walk newPath dp rest).2 = none := by
      simp only [walk, hext, if_false] at hok
      exact hok
    cases path with
    | nil => simp [Dir.find?, Entry.find?] at hf
    | cons n q =>
      by_cases hn : name = n
      · subst hn
        rw [Dir.find?_cons] at hf
        simp only [Dir.get?, if_true] at hf
        cases q with
        | cons n2 q2 => simp [Entry.find?] at hf
        | nil => simp [Entry.find?] at hf
      · have hsrc : (Dir.locked name rest).find? (n :: q) = rest.find? (n :: q) := by
          simp [Dir.find?_cons, Dir.get?, hn]
        rw [hsrc] at hf
        refine ⟨(ih dp hrest (n :: q) c hf).1, ?_⟩
        rw [← (ih dp hrest (n :: q) c hf).2]
        simp only [walk, hext, if_false]
        simp [Dir.find?_cons, Dir.get?, hn]
  | sub name ch rest ihc ihr =>
    intro dp hok path c hf
    have hch : (walk newPath (Join dp name) ch).2 = none := by
      simp only [walk] at hok
      cases hr : (walk newPath (Join dp name) ch).2 with
      | none => rfl
      | some e => rw [hr] at hok; cases hok
    have heq : walk newPath dp (.sub name ch rest)
        = (.sub name (walk newPath (Join dp name) ch).1 (walk newPath dp rest).1,
            (walk newPath dp rest).2) := by
      simp only [walk, hch]
    have hrest : (walk newPath dp rest).2 = none := by
      rw [heq] at hok; exact hok
    rw [heq]
    cases path with
    | nil => simp [Dir.find?, Entry.find?] at hf
    | cons n q =>
      by_cases hn : name = n
      · subst hn
        rw [Dir.find?_cons] at hf
        simp only [Dir.get?, if_true] at hf
        cases q with
        | nil => simp [Entry.find?] at hf
        | cons n2 q2 =>
          have h2 := ihc (Join dp name) hch (n2 :: q2) c hf
          rw [hasSourceExt_cons]
          refine ⟨h2.1, ?_⟩
          rw [← h2.2, Dir.find?_cons]
          simp only [Dir.get?, if_true]
          rfl
      · have hsrc : (Dir.sub name ch rest).find? (n :: q) = rest.find? (n :: q) := by
          simp [Dir.find?_cons, Dir.get?, hn]
        rw [hsrc] at hf
        refine ⟨(ihr dp hrest (n :: q) c hf).1, ?_⟩
        rw [← (ihr dp hrest (n :: q) c hf).2]
        simp [Dir.find?_cons, Dir.get?, hn]

/-- A file that has been read and then written is a regular, writable file. -/
theorem Dir.readFile_writeFile_ok (d d1 : Dir) (name g g2 : GoString)
    (h : d.readFile name = .ok g) (hw : d.writeFile name g2 = .ok d1) :
    d.get? name = some (.file g) := by
  unfold Dir.readFile at h
  unfold Dir.writeFile at hw
  cases hg : d.get? name with
  | none => rw [hg] at h; cases h
  | some e =>
    rw [hg] at h hw
    cases e with
    | file c => cases h; rfl
    | readonly c => cases hw
    | locked => cases h
    | dir ch => cases h

theorem rewriteModulePath_ok (newPath tempDir : GoString) (scratch : Dir)
    (h : (rewriteModulePath newPath tempDir scratch).2 = none) :
    ∃ g, scratch.get? "go.mod".toList = some (.file g) ∧
      (walk newPath tempDir
        (scratch.set "go.mod".toList (.file (ReplaceAll g oldModulePath newPath)))).2 = none ∧
      (rewriteModulePath newPath tempDir scratch).1
        = (walk newPath tempDir
            (scratch.set "go.mod".toList (.file (ReplaceAll g oldModulePath newPath)))).1 := by
  unfold rewriteModulePath at h ⊢
  cases hr : scratch.readFile "go.mod".toList with
  | error e => rw [hr] at h; cases h
  | ok g =>
    rw [hr] at h
    simp only [] at h ⊢
    cases hw : scratch.writeFile "go.mod".toList (ReplaceAll g oldModulePath newPath) with
    | error e => rw [hw] at h; cases h
    | ok s1 =>
      rw [hw] at h
      simp only [] at h ⊢
      have hs1 := Dir.writeFile_ok scratch s1 _ _ hw
      subst hs1
      cases hk : (walk newPath tempDir
          (scratch.set "go.mod".toList (.file (ReplaceAll g oldModulePath newPath)))).2 with
      | some e => rw [hk] at h; cases h
      | none => exact ⟨g, Dir.readFile_writeFile_ok scratch _ _ g _ hr hw, hk, rfl⟩

/-- Writing a file leaves every other entry of the tree as it was. -/
theorem Dir.find?_set_file (d : Dir) (name g g2 : GoString)
    (hg : d.get? name = some (.file g)) (path : List GoString) (hp : path ≠ [name])
    (hnil : path ≠ []) (e : Entry) (hf : d.find? path = some e) :
    (d.set name (.file g2)).find? path = some e := by
  cases path with
  | nil => exact absurd rfl hnil
  | cons n q =>
    by_cases hn : name = n
    · subst hn
      rw [Dir.find?_cons, hg] at hf
      cases q with
      | nil => exact absurd rfl hp
      | cons n2 q2 => simp [Entry.find?] at hf
    · rw [Dir.find?_cons, Dir.get?_set_other d name _ n hn, ← Dir.find?_cons]
      exact hf

/-! ## Properties of the input checks -/

theorem TrimSpace_of_all_space (s : GoString) (h : s.all isSpace = true) : TrimSpace s = [] := by
  have h1 : s.dropWhile isSpace = [] := by
    rw [List.dropWhile_eq_nil_iff]
    intro x hx
    exact List.all_eq_true.mp h x hx
  simp [TrimSpace, h1]

theorem ReadString_line (a rest : GoString) (h : a.all isSpace = true) :
    (ReadString '\n' (a ++ '\n' :: rest)).2 = false ∧
      (ReadString '\n' (a ++ '\n' :: rest)).1.all isSpace = true := by
  induction a with
  | nil => exact ⟨by simp [ReadString], by simp [ReadString]; decide⟩
  | cons c t ih =>
    simp only [List.all_cons, Bool.and_eq_true] at h
    have ih2 := ih h.2
    by_cases hc : c = '\n'
    · subst hc
      exact ⟨by simp [ReadString], by simp [ReadString]; decide⟩
    · simp only [List.cons_append, ReadString, if_neg hc, List.all_cons, Bool.and_eq_true]
      exact ⟨ih2.1, h.1, ih2.2⟩

theorem ReadString_no_delim (delim : Char) (s : GoString) (h : delim ∉ s) :
    (ReadString delim s).2 = true := by
  induction s with
  | nil => rfl
  | cons c t ih =>
    simp only [List.mem_cons, not_or] at h
    have hc : ¬ c = delim := fun hc => h.1 hc.symm
    simp only [ReadString, if_neg hc]
    exact ih h.2

theorem Run_username_unusable (env : Env) (w : World)
    (h : (ReadString '\n' env.stdin).2 = true ∨ TrimSpace (ReadString '\n' env.stdin).1 = []) :
    (Run env w).status = 1 ∧ (Run env w).world = w := by
  unfold Run
  by_cases hp : env.projectName = []
  · simp [hp, osExit]
  · by_cases hr : (ReadString '\n' env.stdin).2 = true
    · simp [hp, hr, osExit]
    · rcases h with h | h
      · exact absurd h hr
      · simp [hp, hr, h, osExit]

theorem ReplaceAll_old_append (old new z : GoString) (hold : old ≠ []) :
    ReplaceAll (old ++ z) old new = new ++ ReplaceAll z old new := by
  rw [ReplaceAll_of_head old new _ hold (List.prefix_append old z), List.drop_left]

/-- A quoted occurrence of `old` is replaced, and the text around the quotes is
rewritten on its own. -/
theorem ReplaceAll_quoted (old new : GoString) (hold : old ≠ []) (hq : '"' ∉ old)
    (pre sub post : GoString) :
    ReplaceAll (pre ++ '"' :: ((old ++ sub) ++ '"' :: post)) old new
      = ReplaceAll pre old new ++ '"' ::
          ((new ++ ReplaceAll sub old new) ++ '"' :: ReplaceAll post old new) := by
  rw [ReplaceAll_sep old new hold '"' hq _ pre.length pre rfl,
    ReplaceAll_sep old new hold '"' hq post (old ++ sub).length (old ++ sub) rfl,
    ReplaceAll_old_append old new sub hold]

/-- The temporary directory at the end of a run: it has been removed when `Run`
returns, and it is still there when the process exits at a stage after
`os.MkdirTemp`. -/
theorem Run_tempDir_at_end (env : Env) (w : World) :
    ((Run env w).failed = none → (Run env w).world.temp = none) ∧
    (∀ stage, (Run env w).failed = some stage →
      stage = .clone ∨ stage = .removeGit ∨ stage = .readGoMod ∨ stage = .writeGoMod ∨
        stage = .walk ∨ stage = .copy →
      (Run env w).world.temp ≠ none) := by
  by_cases h1 : env.projectName = []
  · simp [Run, h1, osExit]
  by_cases h2 : (ReadString '\n' env.stdin).2 = true
  · simp [Run, h1, h2, osExit]
  by_cases h3 : TrimSpace (ReadString '\n' env.stdin).1 = []
  · simp [Run, h1, h2, h3, osExit]
  by_cases h4 : env.getwdFails = true
  · simp [Run, h1, h2, h3, h4, osExit]
  cases h5 : mkdirTarget w.target with
  | error e => simp [Run, h1, h2, h3, h4, h5, osExit]
  | ok targetDir =>
    cases h6 : env.tempDir with
    | none => simp [Run, h1, h2, h3, h4, h5, h6, osExit]
    | some tempDir =>
      cases h7 : env.clone with
      | none => simp [Run, h1, h2, h3, h4, h5, h6, h7, osExit]
      | some tree =>
        by_cases h8 : env.removeGitFails = true
        · simp [Run, h1, h2, h3, h4, h5, h6, h7, h8, osExit]
        · simp only [Run, h1, h2, h3, h4, h5, h6, h7, h8, osExit, returnFrom, if_false]
          generalize rewriteModulePath _ _ _ = r
          rcases r with ⟨d, _ | st⟩
          · simp only []
            generalize copyDir _ _ = r2
            rcases r2 with ⟨d2, _ | e⟩
            · simp
            · simp
          · simp

/-! ## The claims -/

/-- C1 (fails on the code): `copyDir` skips hidden files only. For the source tree
`.github/ci.yml`, `main.go` and an empty destination, the call returns no error
and the destination has the hidden directory `.github` with its content. -/
theorem copyDir_copies_hidden_dir :
    HasPrefix ".github".toList ".".toList = true ∧
    (copyDir hiddenDirTree .nil).2 = none ∧
    (copyDir hiddenDirTree .nil).1.find? [".github".toList]
      = some (.dir (.file "ci.yml".toList "on: push".toList .nil)) ∧
    (copyDir hiddenDirTree .nil).1.find? [".github".toList, "ci.yml".toList]
      = some (.file "on: push".toList) := by
  decide

/-- C2 (fails on the code): when `git clone` fails, the process ends with
`os.Exit(1)`, the deferred `os.RemoveAll(tempDir)` does not run, and the
temporary directory still exists; the run in which every call succeeds returns
and leaves no temporary directory. -/
theorem Run_clone_failure_keeps_tempDir :
    (Run { sampleEnv with clone := none } emptyWorld).status = 1 ∧
    (Run { sampleEnv with clone := none } emptyWorld).failed = some .clone ∧
    (Run { sampleEnv with clone := none } emptyWorld).world.temp = some .nil ∧
    (Run sampleEnv emptyWorld).status = 0 ∧
    (Run sampleEnv emptyWorld).world.temp = none := by
  decide

/-- C3, as stated, fails: the project name `" "` is only white space, and the run
creates the target directory and ends with status 0. -/
theorem Run_accepts_blank_projectName :
    (" ".toList.all isSpace = true) ∧
    (Run { sampleEnv with projectName := " ".toList } emptyWorld).status = 0 ∧
    (Run { sampleEnv with projectName := " ".toList } emptyWorld).world.target
      = some (.dir
        (.file "go.mod".toList "module github.com/alice/ ".toList
        (.file "main.go".toList "import \"github.com/alice/ /internal\"".toList .nil))) := by
  decide

/-- C3, amended: when the project name is the empty string, or standard input
ends before a newline, or the line read for the account is empty or only white
space, the run ends with status 1 and has changed nothing in the file system. -/
theorem Run_rejects_empty_input (env : Env) (w : World)
    (h : env.projectName = [] ∨ '\n' ∉ env.stdin ∨
      ∃ a rest, env.stdin = a ++ '\n' :: rest ∧ a.all isSpace = true) :
    (Run env w).status = 1 ∧ (Run env w).world = w := by
  rcases h with h | h | ⟨a, rest, hs, ha⟩
  · unfold Run
    simp [h, osExit]
  · exact Run_username_unusable env w (Or.inl (ReadString_no_delim '\n' env.stdin h))
  · have hl := ReadString_line a rest ha
    rw [← hs] at hl
    exact Run_username_unusable env w (Or.inr (TrimSpace_of_all_space _ hl.2))

theorem Run_rejects_empty_input_witness :
    (Run { sampleEnv with stdin := " \t\n".toList } emptyWorld).status = 1 ∧
    (Run { sampleEnv with stdin := " \t\n".toList } emptyWorld).world = emptyWorld :=
  Run_rejects_empty_input { sampleEnv with stdin := " \t\n".toList } emptyWorld
    (Or.inr (Or.inr ⟨" \t".toList, [], by decide, by decide⟩))

/-- C4, as stated, fails: for the account `dtg-lucifer` and the project
`goth-stack-starter-v2` the new path contains the old one, and a second rewrite
of the manifest line changes it again. -/
theorem rewrite_twice_differs :
    "dtg-lucifer".toList ≠ [] ∧ "goth-stack-starter-v2".toList ≠ [] ∧
    rewriteContent "dtg-lucifer".toList "goth-stack-starter-v2".toList
      (rewriteContent "dtg-lucifer".toList "goth-stack-starter-v2".toList
        "module github.com/dtg-lucifer/goth-stack-starter".toList)
      ≠ rewriteContent "dtg-lucifer".toList "goth-stack-starter-v2".toList
        "module github.com/dtg-lucifer/goth-stack-starter".toList ∧
    rewriteContent "dtg-lucifer".toList "goth-stack-starter-v2".toList
      "module github.com/dtg-lucifer/goth-stack-starter".toList
      = "module github.com/dtg-lucifer/goth-stack-starter-v2".toList ∧
    rewriteContent "dtg-lucifer".toList "goth-stack-starter-v2".toList
      "module github.com/dtg-lucifer/goth-stack-starter-v2".toList
      = "module github.com/dtg-lucifer/goth-stack-starter-v2-v2".toList := by
  decide

/-- C4, amended: when the new module path does not overlap the old one (no
non-empty end of the new path is a beginning of the old path or begins with it),
rewriting an already rewritten content changes nothing. -/
theorem rewrite_idempotent (a p c : GoString)
    (h : overlapFree oldModulePath (newModulePath a p) = true) :
    rewriteContent a p (rewriteContent a p c) = rewriteContent a p c := by
  obtain ⟨w, hw⟩ := newModulePath_shape a p
  have hnew : newModulePath a p ≠ [] := by rw [hw]; exact List.cons_ne_nil _ _
  have hmid : ∀ y : GoString, y <:+ oldModulePath.tail → y ≠ [] →
      ∀ z : GoString, ¬ y <+: newModulePath a p ++ z := by
    intro y hy hne z
    rw [hw]
    exact oldModulePath_mid y hy hne (w ++ z)
  exact ReplaceAll_idem oldModulePath (newModulePath a p) oldModulePath_ne_nil hnew h hmid
    c.length c rfl

theorem rewrite_idempotent_witness :
    rewriteContent "alice".toList "myapp".toList
      (rewriteContent "alice".toList "myapp".toList
        "module github.com/dtg-lucifer/goth-stack-starter".toList)
    = rewriteContent "alice".toList "myapp".toList
        "module github.com/dtg-lucifer/goth-stack-starter".toList :=
  rewrite_idempotent "alice".toList "myapp".toList
    "module github.com/dtg-lucifer/goth-stack-starter".toList (by decide)

/-- C5: the new module path is `github.com/`, the account, `/`, and the project
name, in that order. -/
theorem newModulePath_is_host_account_project (a p : GoString) :
    newModulePath a p = "github.com/".toList ++ a ++ "/".toList ++ p :=
  newModulePath_eq a p

/-- C6: the manifest line `module github.com/dtg-lucifer/goth-stack-starter` is
rewritten to `module github.com/a/p`; an import of the old path, or of a package
`sub` below it, between double quotes is rewritten to the same import of
`github.com/a/p`; for `alice` and `myapp` the manifest line becomes
`module github.com/alice/myapp`, and the whole run on the sample template leaves
the rewritten `go.mod` and `main.go` in the target and no `.git`. -/
theorem rewrite_manifest_and_imports :
    (∀ a p : GoString,
      rewriteContent a p "module github.com/dtg-lucifer/goth-stack-starter".toList
        = "module github.com/".toList ++ a ++ "/".toList ++ p) ∧
    (∀ a p pre sub post : GoString,
      rewriteContent a p (pre ++ '"' :: ((oldModulePath ++ sub) ++ '"' :: post))
        = rewriteContent a p pre ++ '"' ::
            (("github.com/".toList ++ a ++ "/".toList ++ p ++ rewriteContent a p sub)
              ++ '"' :: rewriteContent a p post)) ∧
    rewriteContent "alice".toList "myapp".toList
        "module github.com/dtg-lucifer/goth-stack-starter".toList
      = "module github.com/alice/myapp".toList ∧
    Run sampleEnv emptyWorld = ⟨0, none, ⟨some (.dir
      (.file "go.mod".toList "module github.com/alice/myapp".toList
      (.file "main.go".toList "import \"github.com/alice/myapp/internal\"".toList .nil))),
      none⟩⟩ := by
  refine ⟨?_, ?_, by decide, by decide⟩
  · intro a p
    have hlit : "module github.com/dtg-lucifer/goth-stack-starter".toList
        = "module".toList ++ ' ' :: (oldModulePath ++ []) := by decide
    unfold rewriteContent
    rw [hlit, ReplaceAll_sep oldModulePath _ oldModulePath_ne_nil ' ' (by decide) _
        "module".toList.length "module".toList rfl,
      ReplaceAll_of_no_occurrence oldModulePath _ "module".toList (by decide),
      ReplaceAll_old_append oldModulePath _ [] oldModulePath_ne_nil,
      ReplaceAll_nil oldModulePath _ oldModulePath_ne_nil, newModulePath_eq]
    simp
  · intro a p pre sub post
    unfold rewriteContent
    rw [ReplaceAll_quoted oldModulePath _ oldModulePath_ne_nil (by decide), newModulePath_eq]

/-- C7: a content with no occurrence of the old module path is written back
unchanged, whatever the new module path. -/
theorem rewrite_without_occurrence (new c : GoString) (h : ¬ oldModulePath <:+: c) :
    ReplaceAll c oldModulePath new = c :=
  ReplaceAll_of_no_occurrence oldModulePath new c h

theorem rewrite_without_occurrence_witness :
    ReplaceAll "package main".toList oldModulePath "github.com/alice/myapp".toList
      = "package main".toList :=
  rewrite_without_occurrence "github.com/alice/myapp".toList "package main".toList (by decide)

/-- C8, as stated, fails: the rewrite of a tree with a `go.mod` in the
sub-directory `tools` returns no error and leaves that file as it was, although
its content has an occurrence of the old module path. -/
theorem rewrite_skips_nested_goMod :
    (rewriteModulePath "github.com/alice/myapp".toList "/tmp/goth-template-1".toList
      nestedModTree).2 = none ∧
    (rewriteModulePath "github.com/alice/myapp".toList "/tmp/goth-template-1".toList
      nestedModTree).1.find? ["tools".toList, "go.mod".toList]
      = some (.file "module github.com/dtg-lucifer/goth-stack-starter/tools".toList) ∧
    ReplaceAll "module github.com/dtg-lucifer/goth-stack-starter/tools".toList oldModulePath
      "github.com/alice/myapp".toList
      ≠ "module github.com/dtg-lucifer/goth-stack-starter/tools".toList := by
  decide

/-- C8, amended: after a rewrite that did not end the process, the `go.mod` at the
top of the tree and every file, at any depth and hidden or not, whose name ends
in `.go` or `.templ` have their original content with every occurrence of the old
module path replaced by the new one, and every other file, a `go.mod` below the
top included, has its content unchanged; a file that cannot be written is among
these other files. -/
theorem rewriteModulePath_files (newPath tempDir : GoString) (scratch : Dir)
    (hok : (rewriteModulePath newPath tempDir scratch).2 = none)
    (path : List GoString) :
    (∀ c, scratch.find? path = some (.file c) →
      (rewriteModulePath newPath tempDir scratch).1.find? path
        = some (.file (if rewrites path then ReplaceAll c oldModulePath newPath else c))) ∧
    (∀ c, scratch.find? path = some (.readonly c) →
      rewrites path = false ∧
      (rewriteModulePath newPath tempDir scratch).1.find? path = some (.readonly c)) := by
  obtain ⟨g, hg, hwalk, heq⟩ := rewriteModulePath_ok newPath tempDir scratch hok
  rw [heq]
  by_cases hp : path = ["go.mod".toList]
  · subst hp
    constructor
    · intro c hf
      have hc : c = g := by
        rw [Dir.find?_cons, hg] at hf
        simpa [Entry.find?] using hf.symm
      subst hc
      have h1 : (scratch.set "go.mod".toList
          (.file (ReplaceAll c oldModulePath newPath))).find? ["go.mod".toList]
          = some (.file (ReplaceAll c oldModulePath newPath)) := by
        rw [Dir.find?_cons, Dir.get?_set_self]
        rfl
      rw [walk_spec newPath _ tempDir hwalk _ _ h1]
      have h2 : hasSourceExt ["go.mod".toList] = false := by decide
      have h3 : rewrites ["go.mod".toList] = true := by decide
      rw [h2, h3]
      simp
    · intro c hf
      rw [Dir.find?_cons, hg] at hf
      simp [Entry.find?] at hf
  · have h2 : rewrites path = hasSourceExt path := by
      rw [rewrites, beq_false_of_ne hp, Bool.false_or]
    constructor
    · intro c hf
      have hnil : path ≠ [] := by
        intro h0
        subst h0
        simp [Dir.find?, Entry.find?] at hf
      have h1 := Dir.find?_set_file scratch "go.mod".toList g
        (ReplaceAll g oldModulePath newPath) hg path hp hnil _ hf
      rw [walk_spec newPath _ tempDir hwalk _ _ h1, h2]
    · intro c hf
      have hnil : path ≠ [] := by
        intro h0
        subst h0
        simp [Dir.find?, Entry.find?] at hf
      have h1 := Dir.find?_set_file scratch "go.mod".toList g
        (ReplaceAll g oldModulePath newPath) hg path hp hnil _ hf
      rw [h2]
      exact walk_spec_readonly newPath _ tempDir hwalk _ _ h1

theorem rewriteModulePath_files_witness :
    (rewriteModulePath "github.com/alice/myapp".toList "/tmp/goth-template-1".toList
      nestedModTree).1.find? ["go.mod".toList]
      = some (.file (if rewrites ["go.mod".toList] then
          ReplaceAll "module github.com/dtg-lucifer/goth-stack-starter".toList oldModulePath
            "github.com/alice/myapp".toList
          else "module github.com/dtg-lucifer/goth-stack-starter".toList)) :=
  (rewriteModulePath_files "github.com/alice/myapp".toList "/tmp/goth-template-1".toList
    nestedModTree (by decide) ["go.mod".toList]).1
    "module github.com/dtg-lucifer/goth-stack-starter".toList (by decide)

/-- C9: when `copyDir` returns no error, every file of the source tree whose name
does not begin with `.`, writable or read-only, is a file at the same path below
the destination with the same content, every directory of the source tree is a
directory at the same path below the destination, and the source tree has no
other non-directory entry with a name that does not begin with `.`. -/
theorem copyDir_mirrors (src dst : Dir) (hwf : src.WF = true)
    (hok : (copyDir src dst).2 = none) (path : List GoString) :
    (∀ c, src.find? path = some (.file c) →
      (∀ name, path.getLast? = some name → HasPrefix name ".".toList = false) →
        (copyDir src dst).1.find? path = some (.file c)) ∧
    (∀ ch, src.find? path = some (.dir ch) →
      ∃ ch2, (copyDir src dst).1.find? path = some (.dir ch2)) ∧
    (src.find? path = some .locked →
      ∀ name, path.getLast? = some name → HasPrefix name ".".toList = true) ∧
    (∀ c, src.find? path = some (.readonly c) →
      (∀ name, path.getLast? = some name → HasPrefix name ".".toList = false) →
        (copyDir src dst).1.find? path = some (.file c)) := by
  by_cases hp : path = []
  · subst hp
    refine ⟨fun c hc _ => ?_, fun _ _ => ⟨_, rfl⟩, fun hl => ?_, fun c hc _ => ?_⟩
    · simp [Dir.find?, Entry.find?] at hc
    · simp [Dir.find?, Entry.find?] at hl
    · simp [Dir.find?, Entry.find?] at hc
  · exact ⟨fun c hc hv => (copyDir_spec src dst hwf hok path _ hp hc).1 c rfl hv,
      fun ch hc => (copyDir_spec src dst hwf hok path _ hp hc).2.1 ch rfl,
      fun hl => (copyDir_spec src dst hwf hok path _ hp hl).2.2.1 rfl,
      fun c hc hv => (copyDir_spec src dst hwf hok path _ hp hc).2.2.2 c rfl hv⟩

theorem copyDir_mirrors_witness :
    (copyDir hiddenDirTree .nil).1.find? ["main.go".toList]
      = some (.file "package main".toList) :=
  (copyDir_mirrors hiddenDirTree .nil (by decide) (by decide) ["main.go".toList]).1
    "package main".toList (by decide) (fun name h => by
      simp only [List.getLast?_singleton, Option.some.injEq] at h
      subst h
      decide)

/-- Each of the stages from `os.MkdirTemp` to the walk ends some run. -/
theorem Run_failure_stages_reachable :
    (Run { sampleEnv with tempDir := none } emptyWorld).failed = some .mkdirTemp ∧
    (Run { sampleEnv with clone := none } emptyWorld).failed = some .clone ∧
    (Run { sampleEnv with removeGitFails := true } emptyWorld).failed = some .removeGit ∧
    (Run { sampleEnv with clone := some .nil } emptyWorld).failed = some .readGoMod ∧
    (Run { sampleEnv with clone := some readonlyModTree } emptyWorld).failed
      = some .writeGoMod ∧
    (Run { sampleEnv with clone := some readonlySourceTree } emptyWorld).failed
      = some .walk := by
  decide

/-- The run `create .` in `/tmp` with a failing clone: the target directory `/tmp`
keeps its file and has the temporary directory in its listing at the end. -/
theorem Run_scratch_inside_target :
    (Run tmpEnv tmpWorld).failed = some .clone ∧
    targetEntry tmpEnv (Run tmpEnv tmpWorld).world
      = some (.dir (.file "notes.txt".toList "x".toList
          (.sub "goth-template-1".toList .nil .nil))) := by
  decide

end Gotthapp
